import Mathlib

/-!
# Verification of the LED strip controller core

Shallow embedding of the rendering/output pipeline of the led-strip-controller
repository (`src/apa102.rs`, `src/transform.rs`, `src/visualizer.rs`), with
theorems settling the frozen claims about it.

Modelling conventions:
* Rust `u8`/`u16`/`usize` values are `Nat`; where overflow or checked
  arithmetic matters it is made explicit.
* Rust `f64` arithmetic is modelled exactly over `ℝ` (or `ℚ` where the code
  stays rational); a Rust `as usize` cast of a float is the saturating
  truncation toward zero that Rust defines (negative values collapse to 0).
* Fallible operations (panicking indexing, checked arithmetic) return
  `Option`.
-/

/-- A pixel: four 8-bit channels, as in `apa102.rs` (`pub struct ARGB8`). -/
structure ARGB8 where
  a : ℕ
  r : ℕ
  g : ℕ
  b : ℕ
deriving Repr, DecidableEq, Inhabited

/-- The Apa102 protocol encoder state: strip length and the wire buffer
(`pub struct Apa102 { length: usize, buffer: Vec<u8> }`). -/
structure Apa102 where
  length : ℕ
  buffer : List ℕ
deriving Repr, DecidableEq

namespace Apa102

/-- `Apa102::new`: `end_frame = 6 + length/16`, `led_frame = 4*(length+1)`
(both computed in `u16`; with Rust's checked arithmetic the multiplication
panics when `4*(length+1)` exceeds `u16::MAX`, hence the guard), buffer of
`led_frame + end_frame` zeros with `buffer[led_frame] = 0xff`. -/
def new (length : ℕ) : Option Apa102 :=
  if 4 * (length + 1) < 65536 then
    let end_frame := 6 + length / 16
    let led_frame := 4 * (length + 1)
    let buffer_size := led_frame + end_frame
    some { length := length
           buffer := (List.replicate buffer_size 0).set led_frame 0xff }
  else
    none

/-- One iteration of the loop body of `Apa102::update`: at `idx = 4*(1+i)`
write `0xE0 & e.a`, then `e.b`, `e.g`, `e.r`. -/
def writePix (buf : List ℕ) (i : ℕ) (e : ARGB8) : List ℕ :=
  ((((buf.set (4 * (1 + i)) (0xE0 &&& e.a)).set (4 * (1 + i) + 1) e.b).set
      (4 * (1 + i) + 2) e.g).set (4 * (1 + i) + 3) e.r)

/-- The loop of `Apa102::update` over `i in 0..len`. -/
def updateLoop (frame : List ARGB8) (len : ℕ) (buf : List ℕ) : List ℕ :=
  (List.range len).foldl (fun b i => writePix b i (frame.getD i default)) buf

/-- `Apa102::update`: indexes `frame[i]` for every `i < self.length`, so it
panics (`none`) unless the frame has at least `length` pixels. -/
def update (s : Apa102) (frame : List ARGB8) : Option Apa102 :=
  if s.length ≤ frame.length then
    some { s with buffer := updateLoop frame s.length s.buffer }
  else
    none

/-- A sequence of `update` calls, each succeeding. -/
def applySeq (s : Apa102) (frames : List (List ARGB8)) : Option Apa102 :=
  frames.foldl (fun acc fr => acc.bind (fun st => st.update fr)) (some s)

end Apa102

/-- The strip-topology descriptor (`transform.rs`, `pub struct Transform`). -/
structure Transform where
  num_strips : ℕ
  strip_length : ℕ
  reversed : List Bool
  x_map : List ℕ
deriving Repr, DecidableEq

namespace Transform

/-- `Transform::new`: panics (`none`) iff either vector length differs from
`num_strips`; otherwise stores the four fields. -/
def new (num_strips strip_length : ℕ) (reversed : List Bool)
    (x_map : List ℕ) : Option Transform :=
  if reversed.length ≠ num_strips ∨ x_map.length ≠ num_strips then none
  else some ⟨num_strips, strip_length, reversed, x_map⟩

/-- Rust slice `&fr[a..b]`: panics (`none`) unless `a ≤ b ≤ fr.length`. -/
def slice {α : Type} (fr : List α) (a b : ℕ) : Option (List α) :=
  if a ≤ b ∧ b ≤ fr.length then some ((fr.drop a).take (b - a)) else none

/-- The mapped-and-flattened iterator chain of `Transform::apply`, one
`(x_map[x], reversed[x])` pair per logical strip: slice the physical
segment, reverse it when flagged, and concatenate. -/
def applySegs {α : Type} (fr : List α) (l : ℕ) :
    List (ℕ × Bool) → Option (List α)
  | [] => some []
  | (xi, rv) :: rest =>
      (slice fr (l * xi) (l * (xi + 1))).bind fun s =>
        (applySegs fr l rest).map fun r =>
          (if rv then s.reverse else s) ++ r

/-- `Transform::apply`: iterate logical strip index `x in 0..num_strips`,
draw segment `x_map[x]`, reverse when `reversed[x]`. -/
def apply (t : Transform) (fr : List ARGB8) : Option (List ARGB8) :=
  applySegs fr t.strip_length
    ((List.range t.num_strips).map fun x =>
      (t.x_map.getD x 0, t.reversed.getD x false))

/-- The index computed by `Transform::write_pixel` (`display::Transform`
impl): after the range check, `idx = l * x_map[x] + (rev ? l - y : y)`. -/
def writePixelIdx (t : Transform) (x y : ℕ) : Option ℕ :=
  if x > t.num_strips - 1 ∨ y > t.strip_length - 1 then none
  else
    some (t.strip_length * t.x_map.getD x 0 +
      if t.reversed.getD x false then t.strip_length - y else y)

/-- `Transform::write_pixel` including the final `frame[idx] = color` store,
which panics (`none`) when `idx` is out of bounds of the frame. -/
def writePixel (t : Transform) (frame : List ARGB8) (x y : ℕ)
    (c : ARGB8) : Option (List ARGB8) :=
  (t.writePixelIdx x y).bind fun idx =>
    if idx < frame.length then some (frame.set idx c) else none

end Transform

/-- The segment the claim says logical output strip `x` must carry. -/
def segmentOf {α : Type} (fr : List α) (l : ℕ) (p : ℕ × Bool) : List α :=
  if p.2 then ((fr.drop (l * p.1)).take l).reverse
  else (fr.drop (l * p.1)).take l

/-- Rust `as usize` cast of an `f64`: truncation toward zero, saturating to
`0` for negative inputs and to `usize::MAX` above (Rust's defined float to
int `as`-cast semantics). -/
noncomputable def rustCastUsize (x : ℝ) : ℕ :=
  if x < 0 then 0 else min ⌊x⌋.toNat (2 ^ 64 - 1)

namespace Sigmoid

/-- `Sigmoid::SIZE`. -/
def SIZE : ℕ := 2048

/-- `Sigmoid::RANGE`. -/
def RANGE : ℝ := 10

/-- `Sigmoid::SCALE = SIZE as f64 / (2. * RANGE)`. -/
noncomputable def SCALE : ℝ := (SIZE : ℝ) / (2 * RANGE)

/-- The LUT built by `Sigmoid::new`: entry `i` holds
`1/(1+exp(-x))` at `x = (i - hl)/hl * RANGE` with `hl = SIZE/2`. -/
noncomputable def lut (i : ℕ) : ℝ :=
  1 / (1 + Real.exp (-(((i : ℝ) - (SIZE / 2 : ℕ)) / (SIZE / 2 : ℕ) * RANGE)))

/-- The LUT index chosen by `Sigmoid::f`: clamp branches first, otherwise
`(x * SCALE) as usize + SIZE/2`. -/
noncomputable def findex (x : ℝ) : ℕ :=
  if x ≥ RANGE then SIZE - 1
  else if x ≤ -RANGE then 0
  else rustCastUsize (x * SCALE) + SIZE / 2

/-- `Sigmoid::f`. -/
noncomputable def f (x : ℝ) : ℝ := lut (findex x)

end Sigmoid

/-- Rounding toward zero on `ℝ` (the spec's `round_toward_zero`). -/
noncomputable def truncTowardZero (x : ℝ) : ℤ :=
  if x < 0 then -⌊-x⌋ else ⌊x⌋

/-- Modelled from the spec: the LUT index the spec prescribes for an input
strictly inside `(-RANGE, RANGE)`, namely
`idx = round_toward_zero(x * SCALE) + SIZE/2`, for comparison with the
code's `Sigmoid.findex`. -/
noncomputable def specSigmoidIdx (x : ℝ) : ℤ :=
  truncTowardZero (x * Sigmoid.SCALE) + (Sigmoid.SIZE / 2 : ℕ)

/-- Rust `as u8` cast of an `f64`: truncation toward zero saturating into
`[0, 255]`. -/
noncomputable def rustCastU8 (x : ℝ) : ℕ :=
  if x < 0 then 0 else min ⌊x⌋.toNat 255

/-- The render parameter record (`visualizer.rs`, `pub struct Params`). -/
structure Params where
  value_scale : ℝ × ℝ
  lightness_scale : ℝ × ℝ
  alpha_scale : ℝ × ℝ
  max_alpha : ℝ
  cycle : ℝ

/-- `Params::defaults`. -/
noncomputable def Params.defaults : Params :=
  ⟨(1, 0), (0.76, 0), (1, -1), 0.125, 1 / 256⟩

namespace Clut

/-- `Clut::HUES`. -/
def HUES : ℕ := 360

/-- `Clut::VALUES`. -/
def VALUES : ℕ := 256

/-- The hue index of `Clut::lookup`:
`(h * Self::HUES as f64) as usize % Self::HUES`. -/
noncomputable def hIdx (h : ℝ) : ℕ := rustCastUsize (h * HUES) % HUES

/-- The value index of `Clut::lookup`:
`usize::max(usize::min((v * VALUES as f64) as usize, VALUES - 1), 0)`. -/
noncomputable def vIdx (v : ℝ) : ℕ :=
  max (min (rustCastUsize (v * VALUES)) (VALUES - 1)) 0

/-- `Clut::lookup`, parameterized by the table contents (built by the
external `hsluv` crate, so kept abstract). -/
noncomputable def lookup (lut : ℕ → ℕ → ℝ × ℝ × ℝ) (h v : ℝ) :
    ℝ × ℝ × ℝ :=
  lut (hIdx h) (vIdx v)

end Clut

/-- The hue actually computed by `Visualizer::get_hsv` and passed to
`CLUT.lookup`: `180. * (params.cycle * e + phi) / PI`. -/
noncomputable def hueArg (p : Params) (e phi : ℝ) : ℝ :=
  180 * (p.cycle * e + phi) / Real.pi

/-- `Visualizer::get_hsv` (the source binds `hue`/`value`/`alpha`/`color`
as locals; they are inlined here): components are
`(31.5*alpha) as u8, (255.5*c.0) as u8, (255.5*c.1) as u8,
(255.5*c.2) as u8`. -/
noncomputable def get_hsv (clut : ℕ → ℕ → ℝ × ℝ × ℝ) (p : Params)
    (val e phi : ℝ) : ARGB8 :=
  ⟨rustCastU8 (31.5 * (p.max_alpha *
      Sigmoid.f (p.alpha_scale.1 * val + p.alpha_scale.2))),
   rustCastU8 (255.5 * (Clut.lookup clut (hueArg p e phi)
      (p.lightness_scale.1 *
        Sigmoid.f (p.value_scale.1 * val + p.value_scale.2) +
        p.lightness_scale.2)).1),
   rustCastU8 (255.5 * (Clut.lookup clut (hueArg p e phi)
      (p.lightness_scale.1 *
        Sigmoid.f (p.value_scale.1 * val + p.value_scale.2) +
        p.lightness_scale.2)).2.1),
   rustCastU8 (255.5 * (Clut.lookup clut (hueArg p e phi)
      (p.lightness_scale.1 *
        Sigmoid.f (p.value_scale.1 * val + p.value_scale.2) +
        p.lightness_scale.2)).2.2)⟩

/-- The `Features` value consumed by the render stage (external `audio`
crate; modelled through its accessors: `get_scales()[j]`,
`get_energy()[j]`, `get_amplitudes(i)[j]`). -/
structure Features where
  scales : ℕ → ℝ
  energy : ℕ → ℝ
  amp : ℕ → ℕ → ℝ

/-- `ws = 2.0 * PI / (length as f64)` from `Visualizer::visualize`. -/
noncomputable def ws (length : ℕ) : ℝ := 2 * Real.pi / length

/-- `val = scales[j] * (amp[j] - 1.0)` from `Visualizer::visualize`. -/
noncomputable def valAt (fs : Features) (j i : ℕ) : ℝ :=
  fs.scales j * (fs.amp i j - 1)

/-- `Visualizer::visualize`: the frame of `length * width` pixels with cell
`j * length + i` set to `get_hsv(params, val, energy[j], phi)`,
`phi = ws * i`. The double loop writes each cell exactly once, so the
resulting vector is this row-major generation. -/
noncomputable def visualize (clut : ℕ → ℕ → ℝ × ℝ × ℝ) (p : Params)
    (length width : ℕ) (fs : Features) : List ARGB8 :=
  (List.range width).bind fun j =>
    (List.range length).map fun i =>
      get_hsv clut p (valAt fs j i) (fs.energy j) (ws length * i)

/-- The `Features` value of the end-to-end scenario: bins = 2, length = 4,
`scale = [1,1]`, `energy = [0,0]`, `amplitude[j][i] = 1` everywhere. -/
def uniformFeatures : Features := ⟨fun _ => 1, fun _ => 0, fun _ _ => 1⟩

/-- Outcome of the non-blocking `frame_tx.try_send(frame)` in
`Visualizer::run`: success, `TrySendError::Full`, or the remaining error
case (a disconnected receiver). -/
inductive SendOutcome where
  | ok : SendOutcome
  | full : SendOutcome
  | disconnected : SendOutcome
deriving Repr, DecidableEq

/-- The render loop of `Visualizer::run` (`while let Ok(features) = ...`),
abstracted over the `Features` type and driven by the per-cycle try-send
outcome: `Ok` delivers the frame, `Full` drops it and continues
(`TrySendError::Full` arm), any other error breaks (`e => ... break` arm).
Returns the frames delivered in order and the number of `Features`
processed before the loop stopped. -/
def renderLoop {F : Type} : List (F × SendOutcome) → List F × ℕ
  | [] => ([], 0)
  | (f, SendOutcome.ok) :: rest =>
      ((renderLoop rest).1.cons f, (renderLoop rest).2 + 1)
  | (_, SendOutcome.full) :: rest =>
      ((renderLoop rest).1, (renderLoop rest).2 + 1)
  | (_, SendOutcome.disconnected) :: _ => ([], 1)

/-- Modelled from the spec: the frames the claim says must come out — the
successfully sent frames among the events strictly before the first
disconnection. -/
def framesBeforeDisconnect {F : Type} (evts : List (F × SendOutcome)) :
    List F :=
  (evts.takeWhile fun p =>
      match p.2 with
      | SendOutcome.disconnected => false
      | _ => true).filterMap fun p =>
    match p.2 with
    | SendOutcome.ok => some p.1
    | _ => none

/-- Modelled from the spec: the number of `Features` values the claim says
the loop consumes — everything before the first disconnection, plus the
disconnecting one when present. -/
def eventsConsumed {F : Type} (evts : List (F × SendOutcome)) : ℕ :=
  (evts.takeWhile fun p =>
      match p.2 with
      | SendOutcome.disconnected => false
      | _ => true).length +
    (if evts.any fun p =>
        match p.2 with
        | SendOutcome.disconnected => true
        | _ => false then 1 else 0)

section ApaLemmas

/-- Reading at an index other than the one just written is unchanged. -/
theorem getD_set_ne_of_ne {α : Type} (l : List α) (i k : ℕ) (a d : α)
    (h : i ≠ k) : (l.set i a).getD k d = l.getD k d := by
  simp [List.getD_eq_getElem?_getD, List.getElem?_set_ne h]

/-- `writePix` only touches byte offsets `4*(1+i) .. 4*(1+i)+3`. -/
theorem Apa102.writePix_getD_outside (buf : List ℕ) (i : ℕ) (e : ARGB8)
    (k d : ℕ) (hk : k < 4 * (1 + i) ∨ 4 * (1 + i) + 3 < k) :
    (Apa102.writePix buf i e).getD k d = buf.getD k d := by
  unfold Apa102.writePix
  rw [getD_set_ne_of_ne _ _ _ _ _ (by omega), getD_set_ne_of_ne _ _ _ _ _ (by omega),
    getD_set_ne_of_ne _ _ _ _ _ (by omega), getD_set_ne_of_ne _ _ _ _ _ (by omega)]

theorem Apa102.writePix_length (buf : List ℕ) (i : ℕ) (e : ARGB8) :
    (Apa102.writePix buf i e).length = buf.length := by
  simp [Apa102.writePix]

/-- The update loop writes only inside the LED-frame region
`[4, 4*(len+1))`. -/
theorem Apa102.updateLoop_getD_outside (frame : List ARGB8) (len : ℕ) :
    ∀ (buf : List ℕ) (k d : ℕ), k < 4 ∨ 4 * (len + 1) ≤ k →
      (Apa102.updateLoop frame len buf).getD k d = buf.getD k d := by
  induction len with
  | zero => intro buf k d _; simp [Apa102.updateLoop]
  | succ n ih =>
    intro buf k d hk
    have hstep : Apa102.updateLoop frame (n + 1) buf =
        Apa102.writePix (Apa102.updateLoop frame n buf) n
          (frame.getD n default) := by
      unfold Apa102.updateLoop
      rw [List.range_succ, List.foldl_append]
      rfl
    rw [hstep, Apa102.writePix_getD_outside _ _ _ _ _ (by omega)]
    exact ih buf k d (by omega)

theorem Apa102.updateLoop_length (frame : List ARGB8) (len : ℕ) :
    ∀ buf : List ℕ,
      (Apa102.updateLoop frame len buf).length = buf.length := by
  induction len with
  | zero => intro buf; simp [Apa102.updateLoop]
  | succ n ih =>
    intro buf
    have hstep : Apa102.updateLoop frame (n + 1) buf =
        Apa102.writePix (Apa102.updateLoop frame n buf) n
          (frame.getD n default) := by
      unfold Apa102.updateLoop
      rw [List.range_succ, List.foldl_append]
      rfl
    rw [hstep, Apa102.writePix_length, ih]

/-- Folding the update sequence over `none` stays `none`. -/
theorem Apa102.foldl_none (frames : List (List ARGB8)) :
    frames.foldl (fun acc fr => acc.bind (fun st => st.update fr))
      (none : Option Apa102) = none := by
  induction frames with
  | nil => rfl
  | cons fr rest ih => simpa using ih

/-- Unfolding one step of `applySeq`. -/
theorem Apa102.applySeq_cons (s : Apa102) (fr : List ARGB8)
    (rest : List (List ARGB8)) :
    Apa102.applySeq s (fr :: rest) =
      (s.update fr).bind (fun s1 => Apa102.applySeq s1 rest) := by
  cases h : s.update fr with
  | none => simp [Apa102.applySeq, h, Apa102.foldl_none]
  | some s1 => simp [Apa102.applySeq, h]

/-- Any successful sequence of updates preserves the strip length, the
buffer size, and every byte outside the LED-frame region `[4, 4*(len+1))`. -/
theorem Apa102.applySeq_outside (frames : List (List ARGB8)) :
    ∀ (s s' : Apa102), Apa102.applySeq s frames = some s' →
      s'.length = s.length ∧ s'.buffer.length = s.buffer.length ∧
      ∀ k d, k < 4 ∨ 4 * (s.length + 1) ≤ k →
        s'.buffer.getD k d = s.buffer.getD k d := by
  induction frames with
  | nil =>
    intro s s' h
    unfold Apa102.applySeq at h
    simp only [List.foldl_nil, Option.some.injEq] at h
    subst h
    exact ⟨rfl, rfl, fun _ _ _ => rfl⟩
  | cons fr rest ih =>
    intro s s' h
    rw [Apa102.applySeq_cons] at h
    cases hu : s.update fr with
    | none => rw [hu] at h; simp at h
    | some s1 =>
      rw [hu] at h
      obtain ⟨h1, h2, h3⟩ := ih s1 s' h
      have hs1 : s1.length = s.length ∧
          s1.buffer = Apa102.updateLoop fr s.length s.buffer := by
        unfold Apa102.update at hu
        split at hu
        · cases Option.some.inj hu
          exact ⟨rfl, rfl⟩
        · exact absurd hu (by simp)
      refine ⟨h1.trans hs1.1, ?_, ?_⟩
      · rw [h2, hs1.2, Apa102.updateLoop_length]
      · intro k d hk
        rw [h3 k d (by rw [hs1.1]; exact hk), hs1.2,
          Apa102.updateLoop_getD_outside fr s.length s.buffer k d hk]

end ApaLemmas

/-- **C6.** For a strip of length `L` (within `u16` range for the frame
arithmetic), the buffer allocated by `new` has exactly
`4*(L+1) + 6 + L/16` bytes and after any successful sequence of `update`
calls it still does (never reallocated); the 4-byte start frame is still all
zero, the end-frame region still has first byte `0xFF` and all remaining
bytes zero, and every byte outside the LED-frame region `[4, 4*(L+1))` is
unchanged from construction. -/
theorem apa102_buffer_invariant (L : ℕ) (hL : 4 * (L + 1) < 65536)
    (frames : List (List ARGB8)) (s0 s' : Apa102)
    (h0 : Apa102.new L = some s0)
    (hseq : Apa102.applySeq s0 frames = some s') :
    s'.buffer.length = 4 * (L + 1) + (6 + L / 16) ∧
    (∀ k, k < 4 → s'.buffer.getD k 99 = 0) ∧
    s'.buffer.getD (4 * (L + 1)) 99 = 0xFF ∧
    (∀ k, 4 * (L + 1) < k → k < 4 * (L + 1) + (6 + L / 16) →
      s'.buffer.getD k 99 = 0) ∧
    (∀ k, k < 4 ∨ 4 * (L + 1) ≤ k →
      s'.buffer.getD k 99 = s0.buffer.getD k 99) := by
  have hnew : s0.length = L ∧ s0.buffer =
      (List.replicate (4 * (L + 1) + (6 + L / 16)) 0).set (4 * (L + 1))
        0xff := by
    unfold Apa102.new at h0
    rw [if_pos hL] at h0
    exact ⟨congrArg Apa102.length (Option.some.inj h0).symm,
      congrArg Apa102.buffer (Option.some.inj h0).symm⟩
  obtain ⟨hlen, hbuf, houtside⟩ := Apa102.applySeq_outside frames s0 s' hseq
  rw [hnew.1] at houtside
  have hb0len : s0.buffer.length = 4 * (L + 1) + (6 + L / 16) := by
    rw [hnew.2]; simp
  have hreplen : 4 * (L + 1) < (List.replicate (4 * (L + 1) + (6 + L / 16))
      (0 : ℕ)).length := by simp
  have hb0led : s0.buffer.getD (4 * (L + 1)) 99 = 0xFF := by
    rw [hnew.2, List.getD_eq_getElem?_getD, List.getElem?_set, if_pos rfl,
      if_pos hreplen]
    rfl
  have hb0other : ∀ k, k ≠ 4 * (L + 1) → k < 4 * (L + 1) + (6 + L / 16) →
      s0.buffer.getD k 99 = 0 := by
    intro k hk hklt
    rw [hnew.2, getD_set_ne_of_ne _ _ _ _ _ (fun h => hk h.symm),
      List.getD_eq_getElem?_getD, List.getElem?_replicate, if_pos hklt]
    rfl
  refine ⟨hbuf.trans hb0len, ?_, ?_, ?_, fun k hk => houtside k 99 hk⟩
  · intro k hk
    rw [houtside k 99 (Or.inl hk)]
    exact hb0other k (by omega) (by omega)
  · rw [houtside _ 99 (Or.inr (le_refl _))]
    exact hb0led
  · intro k hk1 hk2
    rw [houtside k 99 (Or.inr (by omega))]
    exact hb0other k (by omega) hk2

/-- Witness for C6: a concrete strip of length 1 updated once. -/
theorem apa102_buffer_invariant_witness :
    let s0 : Apa102 := ⟨1, [0, 0, 0, 0, 0, 0, 0, 0, 255, 0, 0, 0, 0, 0]⟩
    let s' : Apa102 := ⟨1, [0, 0, 0, 0, 0, 7, 6, 5, 255, 0, 0, 0, 0, 0]⟩
    s'.buffer.length = 4 * (1 + 1) + (6 + 1 / 16) ∧
    (∀ k, k < 4 → s'.buffer.getD k 99 = 0) ∧
    s'.buffer.getD (4 * (1 + 1)) 99 = 0xFF ∧
    (∀ k, 4 * (1 + 1) < k → k < 4 * (1 + 1) + (6 + 1 / 16) →
      s'.buffer.getD k 99 = 0) ∧
    (∀ k, k < 4 ∨ 4 * (1 + 1) ≤ k →
      s'.buffer.getD k 99 = s0.buffer.getD k 99) :=
  apa102_buffer_invariant 1 (by decide) [[⟨31, 5, 6, 7⟩]]
    ⟨1, [0, 0, 0, 0, 0, 0, 0, 0, 255, 0, 0, 0, 0, 0]⟩
    ⟨1, [0, 0, 0, 0, 0, 7, 6, 5, 255, 0, 0, 0, 0, 0]⟩
    (by decide) (by decide)

/-- Structure of a successful `applySegs`: one `l`-pixel segment per pair,
in order, reversed where flagged. -/
theorem Transform.applySegs_spec {α : Type} (fr : List α) (l : ℕ) :
    ∀ ps : List (ℕ × Bool), (∀ p ∈ ps, l * (p.1 + 1) ≤ fr.length) →
      ∃ out, Transform.applySegs fr l ps = some out ∧
        out.length = l * ps.length ∧
        ∀ k, k < ps.length →
          (out.drop (l * k)).take l = segmentOf fr l (ps.getD k (0, false)) := by
  intro ps
  induction ps with
  | nil =>
    intro _
    exact ⟨[], rfl, by simp, fun k hk => absurd hk (by simp)⟩
  | cons p rest ih =>
    intro hps
    obtain ⟨r, hr, hrlen, hrk⟩ :=
      ih (fun q hq => hps q (List.mem_cons_of_mem p hq))
    have hple : l * (p.1 + 1) ≤ fr.length :=
      hps p (List.mem_cons_self p rest)
    have hple' : l * p.1 + l ≤ fr.length := by
      rw [Nat.mul_add, Nat.mul_one] at hple
      exact hple
    have hseg : Transform.slice fr (l * p.1) (l * (p.1 + 1)) =
        some ((fr.drop (l * p.1)).take l) := by
      unfold Transform.slice
      rw [if_pos ⟨Nat.mul_le_mul_left l (Nat.le_succ p.1), hple⟩]
      congr 1
      have : l * (p.1 + 1) - l * p.1 = l := by
        rw [Nat.mul_add, Nat.mul_one]
        omega
      rw [this]
    have hslen : ((fr.drop (l * p.1)).take l).length = l := by
      simp only [List.length_take, List.length_drop]
      omega
    have hsl : (segmentOf fr l p).length = l := by
      unfold segmentOf
      rcases p.2 with _ | _ <;> simp [hslen]
    refine ⟨segmentOf fr l p ++ r, ?_, ?_, ?_⟩
    · obtain ⟨xi, rv⟩ := p
      unfold Transform.applySegs
      rw [hseg, Option.some_bind, hr]
      unfold segmentOf
      rcases rv with _ | _ <;> simp
    · rw [List.length_append, hsl, hrlen, List.length_cons]
      ring
    · intro k hk
      match k with
      | 0 =>
        simp only [Nat.mul_zero, List.drop_zero, List.getD_cons_zero]
        exact List.take_left' hsl
      | Nat.succ k' =>
        have hstep : l * (k' + 1) = (segmentOf fr l p).length + l * k' := by
          rw [hsl]; ring
        rw [hstep, List.drop_append, List.getD_cons_succ]
        exact hrk k' (by simpa using hk)

/-- **C5.** For a frame of `num_strips * strip_length` pixels and a valid
`x_map` (all physical indices in range), `apply` succeeds and logical output
strip `x` carries exactly the pixels of input segment
`frame[l*x_map[x] .. l*(x_map[x]+1)]`, reversed when `reversed[x]` is set,
with segments concatenated in logical order. -/
theorem transform_apply_segment_mapping (n l : ℕ) (rev : List Bool)
    (xm : List ℕ) (fr : List ARGB8)
    (hrev : rev.length = n) (hxm : xm.length = n)
    (hmap : ∀ x, x < n → xm.getD x 0 < n)
    (hfr : fr.length = n * l) :
    ∃ out, Transform.apply ⟨n, l, rev, xm⟩ fr = some out ∧
      out.length = n * l ∧
      ∀ x, x < n →
        ((out.drop (l * x)).take l =
          if rev.getD x false then
            ((fr.drop (l * xm.getD x 0)).take l).reverse
          else (fr.drop (l * xm.getD x 0)).take l) := by
  have hbound : ∀ p ∈ (List.range n).map
      (fun x => (xm.getD x 0, rev.getD x false)), l * (p.1 + 1) ≤ fr.length := by
    intro p hp
    obtain ⟨x, hx, hpx⟩ := List.mem_map.mp hp
    have hxn : x < n := List.mem_range.mp hx
    have : p.1 = xm.getD x 0 := by rw [← hpx]
    rw [this, hfr, Nat.mul_comm n l]
    exact Nat.mul_le_mul_left l (hmap x hxn)
  obtain ⟨out, hout, hlen, hk⟩ :=
    Transform.applySegs_spec fr l _ hbound
  refine ⟨out, hout, ?_, ?_⟩
  · rw [hlen]; simp [Nat.mul_comm]
  · intro x hx
    have hthis := hk x (by simpa using hx)
    have hget : ((List.range n).map
        (fun x => (xm.getD x 0, rev.getD x false))).getD x (0, false) =
        (xm.getD x 0, rev.getD x false) := by
      rw [List.getD_eq_getElem _ _ (by simpa using hx)]
      simp
    rw [hget] at hthis
    rw [hthis]
    unfold segmentOf
    rcases h : rev.getD x false <;> simp [h]

/-- Witness for C5: two strips of length 2, swapped and the second
reversed. -/
theorem transform_apply_segment_mapping_witness :
    ∃ out,
      Transform.apply ⟨2, 2, [false, true], [1, 0]⟩
        [⟨1, 0, 0, 0⟩, ⟨2, 0, 0, 0⟩, ⟨3, 0, 0, 0⟩, ⟨4, 0, 0, 0⟩] = some out ∧
      out.length = 2 * 2 ∧
      ∀ x, x < 2 →
        ((out.drop (2 * x)).take 2 =
          if [false, true].getD x false then
            (([(⟨1, 0, 0, 0⟩ : ARGB8), ⟨2, 0, 0, 0⟩, ⟨3, 0, 0, 0⟩,
              ⟨4, 0, 0, 0⟩].drop (2 * [1, 0].getD x 0)).take 2).reverse
          else ([(⟨1, 0, 0, 0⟩ : ARGB8), ⟨2, 0, 0, 0⟩, ⟨3, 0, 0, 0⟩,
            ⟨4, 0, 0, 0⟩].drop (2 * [1, 0].getD x 0)).take 2) :=
  transform_apply_segment_mapping 2 2 [false, true] [1, 0]
    [⟨1, 0, 0, 0⟩, ⟨2, 0, 0, 0⟩, ⟨3, 0, 0, 0⟩, ⟨4, 0, 0, 0⟩]
    (by decide) (by decide) (by decide) (by decide)

/-- **C8.** `Transform::new` fails exactly when `reversed.len() ≠ num_strips`
or `x_map.len() ≠ num_strips`, and otherwise stores exactly the given
fields. -/
theorem transform_new_spec (n l : ℕ) (rev : List Bool) (xm : List ℕ) :
    (Transform.new n l rev xm = none ↔
      (rev.length ≠ n ∨ xm.length ≠ n)) ∧
    (∀ t, Transform.new n l rev xm = some t →
      t.num_strips = n ∧ t.strip_length = l ∧ t.reversed = rev ∧
        t.x_map = xm) := by
  unfold Transform.new
  by_cases h : rev.length ≠ n ∨ xm.length ≠ n
  · rw [if_pos h]
    exact ⟨iff_of_true rfl h, fun t ht => absurd ht (by simp)⟩
  · rw [if_neg h]
    refine ⟨iff_of_false (by simp) h, fun t ht => ?_⟩
    cases Option.some.inj ht
    exact ⟨rfl, rfl, rfl, rfl⟩

/-- Witness for C8: a concrete matching construction. -/
theorem transform_new_spec_witness :
    (⟨2, 7, [true, false], [1, 0]⟩ : Transform).num_strips = 2 ∧
    (⟨2, 7, [true, false], [1, 0]⟩ : Transform).strip_length = 7 ∧
    (⟨2, 7, [true, false], [1, 0]⟩ : Transform).reversed = [true, false] ∧
    (⟨2, 7, [true, false], [1, 0]⟩ : Transform).x_map = [1, 0] :=
  (transform_new_spec 2 7 [true, false] [1, 0]).2
    ⟨2, 7, [true, false], [1, 0]⟩ (by decide)

/-- **C10.** `write_pixel` with any reversed logical strip `x` and position
`y = 0` passes the range check, yet computes index
`strip_length * (x_map[x] + 1)`, which lies outside segment
`[l*x_map[x], l*(x_map[x]+1))`; when `x_map[x]` is the largest physical
index this equals the frame length, so the store panics instead of landing
in the transformed slot. -/
theorem transform_writePixel_reversed_escapes (n l : ℕ) (rev : List Bool)
    (xm : List ℕ) (x : ℕ) (hn : 1 ≤ n) (hl : 1 ≤ l) (hx : x < n)
    (hrev : rev.getD x false = true) :
    Transform.writePixelIdx ⟨n, l, rev, xm⟩ x 0 =
      some (l * (xm.getD x 0 + 1)) ∧
    l * (xm.getD x 0 + 1) ∉
      Set.Ico (l * xm.getD x 0) (l * (xm.getD x 0 + 1)) ∧
    (xm.getD x 0 = n - 1 →
      l * (xm.getD x 0 + 1) = n * l ∧
      ∀ (fr : List ARGB8) (c : ARGB8), fr.length = n * l →
        Transform.writePixel ⟨n, l, rev, xm⟩ fr x 0 c = none) := by
  have hidx : Transform.writePixelIdx ⟨n, l, rev, xm⟩ x 0 =
      some (l * (xm.getD x 0 + 1)) := by
    unfold Transform.writePixelIdx
    rw [if_neg (by simp only [not_or, not_lt]; omega), hrev]
    simp only [if_true, Nat.sub_zero, Nat.mul_add, Nat.mul_one]
  refine ⟨hidx, by simp, fun hlast => ?_⟩
  have heq : l * (xm.getD x 0 + 1) = n * l := by
    rw [hlast]
    have : n - 1 + 1 = n := by omega
    rw [this, Nat.mul_comm]
  refine ⟨heq, fun fr c hfr => ?_⟩
  unfold Transform.writePixel
  rw [hidx, Option.some_bind, if_neg (by rw [heq, hfr]; exact lt_irrefl _)]

/-- Witness for C10: two strips of length 3, first logical strip reversed
and mapped to the last physical segment. -/
theorem transform_writePixel_reversed_escapes_witness :
    Transform.writePixelIdx ⟨2, 3, [true, true], [1, 0]⟩ 0 0 =
      some (3 * ([1, 0].getD 0 0 + 1)) ∧
    3 * ([1, 0].getD 0 0 + 1) ∉
      Set.Ico (3 * [1, 0].getD 0 0) (3 * ([1, 0].getD 0 0 + 1)) ∧
    ([1, 0].getD 0 0 = 2 - 1 →
      3 * ([1, 0].getD 0 0 + 1) = 2 * 3 ∧
      ∀ (fr : List ARGB8) (c : ARGB8), fr.length = 2 * 3 →
        Transform.writePixel ⟨2, 3, [true, true], [1, 0]⟩ fr 0 0 c = none) :=
  transform_writePixel_reversed_escapes 2 3 [true, true] [1, 0] 0
    (by decide) (by decide) (by decide) (by decide)

/-- **C1 (code bug).** Evaluating the encoder at the failing input: a pixel
with alpha = 31 gets LED-frame byte 0 equal to `0xE0 AND 31 = 0x00`, while
the claim (and the APA102 protocol) requires `0xE0 OR 31 = 0xFF`; likewise a
pixel with alpha = 0 gets byte 0 = `0x00`, not the claimed `0xE0`. -/
theorem apa102_byte0_and_vs_or :
    ∃ s : Apa102,
      (Apa102.new 2).bind
          (fun s0 => s0.update [⟨31, 5, 6, 7⟩, ⟨0, 8, 9, 10⟩]) = some s ∧
      s.buffer.getD 4 99 = 0x00 ∧ (0xE0 ||| 31 : ℕ) = 0xFF ∧
      s.buffer.getD 4 99 ≠ (0xE0 ||| 31 : ℕ) ∧
      s.buffer.getD 8 99 = 0x00 ∧ (0xE0 ||| 0 : ℕ) = 0xE0 ∧
      s.buffer.getD 8 99 ≠ (0xE0 ||| 0 : ℕ) := by
  refine ⟨⟨2, [0, 0, 0, 0, 0, 7, 6, 5, 0, 10, 9, 8,
    255, 0, 0, 0, 0, 0]⟩, by decide, by decide, by decide, by decide,
    by decide, by decide, by decide⟩

/-- **C2 (code bug).** At the failing input `x = -5` (strictly inside
`(-10, 0)`), the code's float-to-`usize` cast saturates the negative product
`x * SCALE = -512` to `0`, so `Sigmoid::f` reads `lut[1024]` — the table
midpoint — whereas the claimed index is `round_toward_zero(-512) + 1024 =
512`, an entry below the midpoint. -/
theorem sigmoid_negative_cast_divergence :
    Sigmoid.findex (-5) = 1024 ∧
    Sigmoid.f (-5) = Sigmoid.lut 1024 ∧
    specSigmoidIdx (-5) = 512 ∧
    (1024 : ℤ) ≠ 512 := by
  have hscale : Sigmoid.SCALE = 2048 / 20 := by
    unfold Sigmoid.SCALE Sigmoid.SIZE Sigmoid.RANGE
    norm_num
  have hidx : Sigmoid.findex (-5) = 1024 := by
    unfold Sigmoid.findex
    rw [if_neg (by unfold Sigmoid.RANGE; norm_num),
      if_neg (by unfold Sigmoid.RANGE; norm_num)]
    unfold rustCastUsize
    rw [if_pos (by rw [hscale]; norm_num)]
    unfold Sigmoid.SIZE
    norm_num
  refine ⟨hidx, by unfold Sigmoid.f; rw [hidx], ?_, by decide⟩
  unfold specSigmoidIdx truncTowardZero
  rw [hscale]
  rw [if_pos (by norm_num)]
  have : (-5 * (2048 / 20) : ℝ) = -512 := by norm_num
  rw [this]
  norm_num
  rfl

/-- The saturating cast is monotone. -/
theorem rustCastUsize_mono {x y : ℝ} (h : x ≤ y) :
    rustCastUsize x ≤ rustCastUsize y := by
  unfold rustCastUsize
  by_cases hx : x < 0
  · rw [if_pos hx]
    exact Nat.zero_le _
  · rw [if_neg hx, if_neg (by linarith)]
    exact min_le_min (Int.toNat_le_toNat (Int.floor_le_floor h)) (le_refl _)

/-- In the unclamped branch the computed index stays at most `SIZE - 1`. -/
theorem Sigmoid.middle_le {x : ℝ} (hx : ¬ x ≥ Sigmoid.RANGE) :
    rustCastUsize (x * Sigmoid.SCALE) + Sigmoid.SIZE / 2 ≤
      Sigmoid.SIZE - 1 := by
  have hscale : Sigmoid.SCALE = 2048 / 20 := by
    unfold Sigmoid.SCALE Sigmoid.SIZE Sigmoid.RANGE
    norm_num
  have hlt : x * Sigmoid.SCALE < 1024 := by
    rw [hscale]
    unfold Sigmoid.RANGE at hx
    nlinarith [not_le.mp (by exact_mod_cast hx : ¬ (10 : ℝ) ≤ x)]
  have hcast : rustCastUsize (x * Sigmoid.SCALE) ≤ 1023 := by
    unfold rustCastUsize
    by_cases hneg : x * Sigmoid.SCALE < 0
    · rw [if_pos hneg]; omega
    · rw [if_neg hneg]
      have hfl : ⌊x * Sigmoid.SCALE⌋ ≤ 1023 := by
        have hcast : x * Sigmoid.SCALE < ((1024 : ℤ) : ℝ) := by
          push_cast
          linarith
        have := Int.floor_lt.mpr hcast
        omega
      exact le_trans (min_le_left _ _) (by exact_mod_cast Int.toNat_le_toNat hfl)
  unfold Sigmoid.SIZE
  omega

/-- The index selection of `Sigmoid::f` is monotone. -/
theorem Sigmoid.findex_mono {x y : ℝ} (h : x ≤ y) :
    Sigmoid.findex x ≤ Sigmoid.findex y := by
  unfold Sigmoid.findex
  by_cases hx1 : x ≥ Sigmoid.RANGE
  · rw [if_pos hx1, if_pos (le_trans hx1 h)]
  · rw [if_neg hx1]
    by_cases hx2 : x ≤ -Sigmoid.RANGE
    · rw [if_pos hx2]
      exact Nat.zero_le _
    · rw [if_neg hx2]
      by_cases hy1 : y ≥ Sigmoid.RANGE
      · rw [if_pos hy1]
        exact Sigmoid.middle_le hx1
      · rw [if_neg hy1, if_neg (by push_neg at hx2 ⊢; linarith)]
        have hscale_nonneg : (0 : ℝ) ≤ Sigmoid.SCALE := by
          unfold Sigmoid.SCALE Sigmoid.SIZE Sigmoid.RANGE
          norm_num
        exact Nat.add_le_add_right
          (rustCastUsize_mono (mul_le_mul_of_nonneg_right h hscale_nonneg)) _

/-- The LUT of `Sigmoid::new` is monotone: it samples the strictly
increasing logistic function at increasing abscissae. -/
theorem Sigmoid.lut_mono {i j : ℕ} (h : i ≤ j) :
    Sigmoid.lut i ≤ Sigmoid.lut j := by
  unfold Sigmoid.lut
  set a : ℝ := ((i : ℝ) - (Sigmoid.SIZE / 2 : ℕ)) / (Sigmoid.SIZE / 2 : ℕ) *
    Sigmoid.RANGE with ha
  set b : ℝ := ((j : ℝ) - (Sigmoid.SIZE / 2 : ℕ)) / (Sigmoid.SIZE / 2 : ℕ) *
    Sigmoid.RANGE with hb
  have hab : a ≤ b := by
    rw [ha, hb]
    unfold Sigmoid.SIZE Sigmoid.RANGE
    have hij : (i : ℝ) ≤ (j : ℝ) := by exact_mod_cast h
    norm_num
    nlinarith
  have hexp : Real.exp (-b) ≤ Real.exp (-a) :=
    Real.exp_le_exp.mpr (neg_le_neg hab)
  have hpos : (0 : ℝ) < 1 + Real.exp (-b) := by positivity
  exact one_div_le_one_div_of_le hpos (by linarith)

/-- **C9.** `Sigmoid::f` is monotonically non-decreasing over its whole
domain. -/
theorem sigmoid_f_monotone (x1 x2 : ℝ) (h : x1 ≤ x2) :
    Sigmoid.f x1 ≤ Sigmoid.f x2 :=
  Sigmoid.lut_mono (Sigmoid.findex_mono h)

/-- Witness for C9 at the concrete pair `0 ≤ 1`. -/
theorem sigmoid_f_monotone_witness :
    (0 : ℝ) ≤ 1 ∧ Sigmoid.f 0 ≤ Sigmoid.f 1 :=
  ⟨by norm_num, sigmoid_f_monotone 0 1 (by norm_num)⟩

/-- The saturating cast is the identity on natural values below
`usize::MAX`. -/
theorem rustCastUsize_natCast (n : ℕ) (h : n ≤ 2 ^ 64 - 1) :
    rustCastUsize (n : ℝ) = n := by
  unfold rustCastUsize
  rw [if_neg (not_lt.mpr (Nat.cast_nonneg n)), Int.floor_natCast,
    Int.toNat_natCast]
  exact min_eq_left h

/-- **C3 counterexample.** At pixel `i = 1` of a 4-pixel strip with zero
energy, the render stage passes hue `180 * (π/2) / π = 90` to
`Clut.lookup` — not the value `1/4` that "`cycle*energy + phi` reduced to
`[0,1)` turns" would give, and not in `[0,1)` at all. -/
theorem hue_not_normalized_counterexample :
    hueArg Params.defaults 0 (ws 4 * 1) = 90 ∧
    ¬ hueArg Params.defaults 0 (ws 4 * 1) < 1 ∧
    (2 * Real.pi / 4 * 1) / (2 * Real.pi) = 1 / 4 := by
  have hpi := Real.pi_ne_zero
  have h90 : hueArg Params.defaults 0 (ws 4 * 1) = 90 := by
    unfold hueArg ws Params.defaults
    push_cast
    field_simp
    ring
  refine ⟨h90, by rw [h90]; norm_num, by field_simp; ring⟩

/-- **C3 amended.** The hue the render stage passes to `Clut.lookup` is
`180 * (cycle*e + phi) / π` — the angle `cycle*e + phi` in degrees, not
reduced to one turn; with the render loop's `phi = 2π·i/length` it equals
`180*cycle*e/π + 360*i/length`, and `Clut.lookup` itself wraps any hue into
a valid table row by `(hue * 360) as usize % 360`. -/
theorem hue_degrees_and_lookup_wrap (p : Params) (e : ℝ) (L i : ℕ)
    (hL : 0 < L) :
    hueArg p e (ws L * i) =
      180 * p.cycle * e / Real.pi + 360 * i / L ∧
    Clut.hIdx (hueArg p e (ws L * i)) < Clut.HUES := by
  constructor
  · unfold hueArg ws
    have hpi := Real.pi_ne_zero
    have hL' : (L : ℝ) ≠ 0 := Nat.cast_ne_zero.mpr (Nat.pos_iff_ne_zero.mp hL)
    field_simp
    ring
  · unfold Clut.hIdx
    exact Nat.mod_lt _ (by unfold Clut.HUES; norm_num)

/-- Witness for the amended C3 at `p = defaults`, `e = 0`, `L = 4`,
`i = 1`. -/
theorem hue_degrees_and_lookup_wrap_witness :
    hueArg Params.defaults 0 (ws 4 * ((1 : ℕ) : ℝ)) =
      180 * Params.defaults.cycle * 0 / Real.pi +
        360 * ((1 : ℕ) : ℝ) / ((4 : ℕ) : ℝ) ∧
    Clut.hIdx (hueArg Params.defaults 0 (ws 4 * ((1 : ℕ) : ℝ))) <
      Clut.HUES :=
  hue_degrees_and_lookup_wrap Params.defaults 0 4 1 (by norm_num)

/-- **C4.** In the end-to-end scenario (bins = 2, length = 4, unit scales,
zero energies, all amplitudes 1) every pixel's `val` input to the sigmoid is
0 and the rendered frame is 8 identical pixels, whatever the color table
and parameters. -/
theorem visualize_uniform_frame (clut : ℕ → ℕ → ℝ × ℝ × ℝ) (p : Params) :
    (∀ j i, valAt uniformFeatures j i = 0) ∧
    ∃ c : ARGB8, visualize clut p 4 2 uniformFeatures =
      List.replicate 8 c := by
  have hval : ∀ j i, valAt uniformFeatures j i = 0 := by
    intro j i
    unfold valAt uniformFeatures
    norm_num
  have hhue : ∀ i : ℕ, hueArg p 0 (ws 4 * i) = 90 * i := by
    intro i
    unfold hueArg ws
    have hpi := Real.pi_ne_zero
    push_cast
    field_simp
    ring
  have hidx : ∀ i : ℕ, i < 4 → Clut.hIdx (90 * (i : ℝ)) = 0 := by
    intro i hi
    unfold Clut.hIdx Clut.HUES
    have hcast : (90 * (i : ℝ)) * ((360 : ℕ) : ℝ) =
        ((32400 * i : ℕ) : ℝ) := by push_cast; ring
    rw [hcast, rustCastUsize_natCast _ (by omega), Nat.mul_mod]
    norm_num
  have hpix : ∀ i : ℕ, i < 4 → get_hsv clut p 0 0 (ws 4 * (i : ℝ)) =
      get_hsv clut p 0 0 (ws 4 * ((0 : ℕ) : ℝ)) := by
    intro i hi
    unfold get_hsv Clut.lookup
    rw [show Clut.hIdx (hueArg p 0 (ws 4 * (i : ℝ))) = 0 by
        rw [hhue i]; exact hidx i hi,
      show Clut.hIdx (hueArg p 0 (ws 4 * ((0 : ℕ) : ℝ))) = 0 by
        rw [hhue 0]; exact hidx 0 (by norm_num)]
  refine ⟨hval, ⟨get_hsv clut p 0 0 (ws 4 * ((0 : ℕ) : ℝ)), ?_⟩⟩
  have h2 : List.range 2 = [0, 1] := rfl
  have h4 : List.range 4 = [0, 1, 2, 3] := rfl
  have he : ∀ j, uniformFeatures.energy j = 0 := fun _ => rfl
  unfold visualize
  rw [h2, h4]
  simp only [List.cons_bind, List.nil_bind, List.map_cons, List.map_nil,
    List.append_nil, hval, he]
  rw [hpix 0 (by norm_num), hpix 1 (by norm_num), hpix 2 (by norm_num),
    hpix 3 (by norm_num)]
  rfl

/-- The render loop delivers exactly the ok-sent frames before the first
disconnection and consumes exactly the events up to and including it. -/
theorem renderLoop_characterization {F : Type}
    (evts : List (F × SendOutcome)) :
    (renderLoop evts).1 = framesBeforeDisconnect evts ∧
    (renderLoop evts).2 = eventsConsumed evts := by
  induction evts with
  | nil => exact ⟨rfl, rfl⟩
  | cons p rest ih =>
    obtain ⟨f, o⟩ := p
    cases o with
    | ok =>
      refine ⟨?_, ?_⟩
      · show f :: (renderLoop rest).1 = framesBeforeDisconnect ((f, SendOutcome.ok) :: rest)
        rw [ih.1]
        rfl
      · show (renderLoop rest).2 + 1 = eventsConsumed ((f, SendOutcome.ok) :: rest)
        have h2 := ih.2
        unfold eventsConsumed at h2 ⊢
        simp only [List.takeWhile_cons, List.any_cons, if_true,
          List.length_cons, Bool.false_or] at h2 ⊢
        omega
    | full =>
      refine ⟨?_, ?_⟩
      · show (renderLoop rest).1 = framesBeforeDisconnect ((f, SendOutcome.full) :: rest)
        rw [ih.1]
        rfl
      · show (renderLoop rest).2 + 1 = eventsConsumed ((f, SendOutcome.full) :: rest)
        have h2 := ih.2
        unfold eventsConsumed at h2 ⊢
        simp only [List.takeWhile_cons, List.any_cons, if_true,
          List.length_cons, Bool.false_or] at h2 ⊢
        omega
    | disconnected => exact ⟨rfl, rfl⟩

/-- **C7.** When a finished frame's non-blocking send fails with `Full`, the
frame is discarded (not queued, not blocked on) and the loop proceeds to the
next `Features`; when it fails with a disconnected receiver, the loop
terminates. Globally: the delivered frames are exactly the ok-sent ones
before the first disconnection, and nothing after a disconnection is
processed. -/
theorem render_loop_drop_policy {F : Type} (f : F)
    (rest evts : List (F × SendOutcome)) :
    renderLoop ((f, SendOutcome.full) :: rest) =
      ((renderLoop rest).1, (renderLoop rest).2 + 1) ∧
    renderLoop ((f, SendOutcome.ok) :: rest) =
      (f :: (renderLoop rest).1, (renderLoop rest).2 + 1) ∧
    renderLoop ((f, SendOutcome.disconnected) :: rest) = ([], 1) ∧
    (renderLoop evts).1 = framesBeforeDisconnect evts ∧
    (renderLoop evts).2 = eventsConsumed evts :=
  ⟨rfl, rfl, rfl, (renderLoop_characterization evts).1,
    (renderLoop_characterization evts).2⟩
